import Mathlib

/-
Verification of the tri-color mark/sweep simulation code of this repository.
The Go code under study lives in the GC material of the repository:
`markPhase`, `sweepPhase`, `createObjectGraph`, `initializeColors` and the
three write-barrier variants (`dijkstraWriteBarrier`, `yuasaWriteBarrier`,
`hybridWriteBarrier`) from the tri-color chapter, and the recursive
`markObject` from the memory-model chapter.  Objects are shallowly embedded
as integer identities; an object's color and children list are total maps
from identities, mirroring the Go structs `Object {id, color, children}`.
-/

namespace GoGC

/-- Color is the tri-color state of an object: White (unvisited),
Gray (visited, children pending), Black (fully visited), exactly the
`Color` constants of the source. -/
inductive Color where
  | White
  | Gray
  | Black
deriving DecidableEq

/-- rank orders the three colors along the forward direction
White before Gray before Black, used to state monotonicity. -/
def Color.rank : Color → Nat
  | Color.White => 0
  | Color.Gray => 1
  | Color.Black => 2

/-- ColorLe a b states that b is at least as advanced as a in the
White to Gray to Black progression. -/
def ColorLe (a b : Color) : Prop := a.rank ≤ b.rank

theorem colorLe_refl (a : Color) : ColorLe a a := Nat.le_refl _

theorem colorLe_trans {a b c : Color} (h1 : ColorLe a b) (h2 : ColorLe b c) :
    ColorLe a c := Nat.le_trans h1 h2

theorem colorLe_black (a : Color) : ColorLe a Color.Black := by
  cases a <;> simp [ColorLe, Color.rank]

theorem white_colorLe (a : Color) : ColorLe Color.White a := Nat.zero_le _

/-- setColor is the pointwise update of a color map, the embedding of the
Go assignment `obj.color = c`. -/
def setColor (cmap : Nat → Color) (i : Nat) (c : Color) : Nat → Color :=
  fun y => if y = i then c else cmap y

/-- whiteCount counts the White objects among a finite universe of
identities; it is the termination measure of the marking loops. -/
def whiteCount (univ : List Nat) (cmap : Nat → Color) : Nat :=
  (univ.filter fun i => decide (cmap i = Color.White)).length

/-- Closed univ g states that the reference graph g never points outside
the universe univ of allocated identities. -/
def Closed (univ : List Nat) (g : Nat → List Nat) : Prop :=
  ∀ i ∈ univ, ∀ c ∈ g i, c ∈ univ

/-- Reachable g x y states that object y can be reached from object x by
following children edges of the reference graph g. -/
inductive Reachable (g : Nat → List Nat) : Nat → Nat → Prop where
  | refl (x : Nat) : Reachable g x x
  | tail {x y z : Nat} : Reachable g x y → z ∈ g y → Reachable g x z


/-- shadeChildren is the inner loop of the source `markPhase`:
`for _, child := range current.children { if child.color == White {
child.color = Gray; grayObjects = append(grayObjects, child) } }`.
It folds over the children list, promoting each White child to Gray and
appending it to the gray queue. -/
def shadeChildren (cmap : Nat → Color) (q : List Nat) : List Nat → ((Nat → Color) × List Nat)
  | [] => (cmap, q)
  | c :: rest =>
    if cmap c = Color.White then
      shadeChildren (setColor cmap c Color.Gray) (q ++ [c]) rest
    else
      shadeChildren cmap q rest

/-- markLoop is the gray-worklist loop of the source `markPhase`: pop the
front of `grayObjects`, shade White children Gray pushing them on the
queue, then set the popped object Black; repeat until the queue is empty.
Fuel makes the recursion structural; exhausting fuel yields none. -/
def markLoop (g : Nat → List Nat) : Nat → List Nat → (Nat → Color) → Option (Nat → Color)
  | _, [], cmap => some cmap
  | 0, _ :: _, _ => none
  | fuel + 1, cur :: rest, cmap =>
    let p := shadeChildren cmap rest (g cur)
    markLoop g fuel p.2 (setColor p.1 cur Color.Black)

/-- markPhase embeds the source function of the same name: the root is
set Gray, seeds the worklist, and the loop drains it. -/
def markPhase (g : Nat → List Nat) (root : Nat) (cmap : Nat → Color) (fuel : Nat) :
    Option (Nat → Color) :=
  markLoop g fuel [root] (setColor cmap root Color.Gray)

/-- GrayInQueue is the marking engine invariant: every Gray object is on
the gray worklist. -/
def GrayInQueue (q : List Nat) (cmap : Nat → Color) : Prop :=
  ∀ x, cmap x = Color.Gray → x ∈ q

/-- BlackNoWhiteChild is the tri-color invariant the drained loop
establishes: no Black object has a White child. -/
def BlackNoWhiteChild (g : Nat → List Nat) (cmap : Nat → Color) : Prop :=
  ∀ i, cmap i = Color.Black → ∀ c ∈ g i, cmap c ≠ Color.White

mutual
/-- markObjectF embeds the recursive `markObject` of the memory-model
chapter: return unless the object is White, otherwise set it Gray, mark
every child recursively, then set it Black.  The fuel argument bounds the
recursion depth (the Go call stack); exhausting it yields none. -/
def markObjectF (g : Nat → List Nat) (fuel : Nat) (o : Nat) (cmap : Nat → Color) :
    Option (Nat → Color) :=
  match fuel with
  | 0 => none
  | f + 1 =>
    if cmap o = Color.White then
      match markChildren g f (g o) (setColor cmap o Color.Gray) with
      | none => none
      | some m => some (setColor m o Color.Black)
    else some cmap
termination_by (fuel, 0)

/-- markChildren is the `for _, child := range obj.children` loop of
`markObject`, marking each child in order. -/
def markChildren (g : Nat → List Nat) (fuel : Nat) (cs : List Nat) (cmap : Nat → Color) :
    Option (Nat → Color) :=
  match cs with
  | [] => some cmap
  | c :: rest =>
    match markObjectF g fuel c cmap with
    | none => none
    | some m => markChildren g fuel rest m
termination_by (fuel, cs.length + 1)
end

/-- GCHeap is the shallow heap model for the write-barrier and sweep
code: per-identity color, per-identity outgoing reference list
(`children`), and the allocation status of each identity.  Allocation is
implicit in Go (an object exists once created); it is modelled as a
predicate so that reclamation, if any code performed it, would be
visible. -/
structure GCHeap where
  color : Nat → Color
  children : Nat → List Nat
  alloc : Nat → Bool

/-- dijkstraWriteBarrier embeds the source method of the same name: if
the holder is Black and the child White, the child is shaded Gray; then
the write is performed by appending the child to the holder's reference
list (`obj.children = append(obj.children, child)`). -/
def dijkstraWriteBarrier (h : GCHeap) (holder child : Nat) : GCHeap :=
  let shaded :=
    if h.color holder = Color.Black ∧ h.color child = Color.White then
      { h with color := setColor h.color child Color.Gray }
    else h
  { shaded with
      children := fun i =>
        if i = holder then shaded.children holder ++ [child] else shaded.children i }

/-- yuasaWriteBarrier embeds the source method of the same name: if the
holder is Gray and the child White, the child is shaded Gray; then the
write appends the child to the holder's reference list. -/
def yuasaWriteBarrier (h : GCHeap) (holder child : Nat) : GCHeap :=
  let shaded :=
    if h.color holder = Color.Gray ∧ h.color child = Color.White then
      { h with color := setColor h.color child Color.Gray }
    else h
  { shaded with
      children := fun i =>
        if i = holder then shaded.children holder ++ [child] else shaded.children i }

/-- hybridWriteBarrier embeds the source method of the same name: the
Dijkstra condition (Black holder, White child) or else the Yuasa-labelled
condition (Gray holder, White child) shades the child Gray; then the
write appends the child to the holder's reference list.  The source
barrier reads only the two colors; it loads no overwritten value. -/
def hybridWriteBarrier (h : GCHeap) (holder child : Nat) : GCHeap :=
  let shaded :=
    if h.color holder = Color.Black ∧ h.color child = Color.White then
      { h with color := setColor h.color child Color.Gray }
    else if h.color holder = Color.Gray ∧ h.color child = Color.White then
      { h with color := setColor h.color child Color.Gray }
    else h
  { shaded with
      children := fun i =>
        if i = holder then shaded.children holder ++ [child] else shaded.children i }

/-- dijkstraWriteBarrierWL pairs the barrier with an ambient gray
worklist.  The source barrier's body mentions no worklist at all, so any
worklist in scope passes through unchanged; this wrapper makes that
absence a statable fact. -/
def dijkstraWriteBarrierWL (wl : List Nat) (h : GCHeap) (holder child : Nat) :
    List Nat × GCHeap :=
  (wl, dijkstraWriteBarrier h holder child)

/-- SweepClass is the classification the source `sweepPhase` prints for
each enumerated object: White objects are reported reclaimed, Gray ones
as an abnormal state, Black ones as survivors. -/
inductive SweepClass where
  | Reclaimed
  | Abnormal
  | Survives
deriving DecidableEq

/-- sweepClassify is the `switch obj.color` of the source `sweepPhase`. -/
def sweepClassify : Color → SweepClass
  | Color.White => SweepClass.Reclaimed
  | Color.Gray => SweepClass.Abnormal
  | Color.Black => SweepClass.Survives

mutual
/-- collectAllF embeds `collectAll` inside the source `sweepPhase`: it
returns the identities contributed below one object, namely each child
followed by that child's own contribution, in order.  The recursion has
no visited set in the source, so fuel bounds the depth; on a cyclic
graph the source recursion would not return, and fuel exhaustion yields
none. -/
def collectAllF (g : Nat → List Nat) (fuel : Nat) (o : Nat) : Option (List Nat) :=
  match fuel with
  | 0 => none
  | f + 1 => collectKids g f (g o)
termination_by (fuel, 0)

/-- collectKids is the `for _, child := range obj.children` loop of
`collectAll`, appending each child and then its contribution. -/
def collectKids (g : Nat → List Nat) (fuel : Nat) (cs : List Nat) : Option (List Nat) :=
  match cs with
  | [] => some []
  | c :: rest =>
    match collectAllF g fuel c, collectKids g fuel rest with
    | some l1, some l2 => some (c :: (l1 ++ l2))
    | _, _ => none
termination_by (fuel, cs.length + 1)
end

/-- sweepPhase embeds the source function of the same name: it gathers
`allObjects` starting from the root object via `collectAll`, then for
each gathered object reports the classification of its color.  The
source performs no write at all — it only reads colors and prints — so
the heap component of the result is the input heap. -/
def sweepPhase (h : GCHeap) (fuel root : Nat) : Option (GCHeap × List (Nat × SweepClass)) :=
  match collectAllF h.children fuel root with
  | none => none
  | some contrib =>
    some (h, (root :: contrib).map (fun i => (i, sweepClassify (h.color i))))

/-- createObjectGraph embeds the source function of the same name: root
object 1 with children 2 and 3, objects 2 and 3 sharing child 4, and an
orphan object 99 that nothing references; every object is created White.
The allocated identities are exactly those five. -/
def createObjectGraph : GCHeap × Nat :=
  ({ color := fun _ => Color.White,
     children := fun i =>
       if i = 1 then [2, 3] else if i = 2 then [4] else if i = 3 then [4] else [],
     alloc := fun i => i == 1 || i == 2 || i == 3 || i == 4 || i == 99 },
   1)

/-- allWhite is the color map after the source `initializeColors`: every
object White. -/
def allWhite : Nat → Color := fun _ => Color.White

/-- gChain is a concrete three-object chain 1 to 2 to 3 used to evaluate
the marking engine on a closed input. -/
def gChain : Nat → List Nat := fun i => if i = 1 then [2] else if i = 2 then [3] else []

/-- gCycle is a concrete cyclic reference graph, 1 and 2 pointing at each
other, exercising termination on cycles. -/
def gCycle : Nat → List Nat := fun i => if i = 1 then [2] else if i = 2 then [1] else []

/-- hBW is a concrete heap with object 1 Black and every other object
White, no references. -/
def hBW : GCHeap :=
  { color := fun i => if i = 1 then Color.Black else Color.White,
    children := fun _ => [],
    alloc := fun _ => true }

/-- hGW is a concrete heap with object 1 Gray and every other object
White, no references. -/
def hGW : GCHeap :=
  { color := fun i => if i = 1 then Color.Gray else Color.White,
    children := fun _ => [],
    alloc := fun _ => true }

/-- hOldVal is a concrete heap in which White holder 1 already
references object 7, itself White: the configuration in which a
Yuasa-style deletion barrier would have to shade the old value 7. -/
def hOldVal : GCHeap :=
  { color := fun _ => Color.White,
    children := fun i => if i = 1 then [7] else [],
    alloc := fun _ => true }

/-- hLiteral is the literal three-object test of the spec: Root is
object 1 (scanned, Black) holding A = object 2 (Black); B = object 3 is
unreached and White. -/
def hLiteral : GCHeap :=
  { color := fun i =>
      if i = 1 then Color.Black else if i = 2 then Color.Black else Color.White,
    children := fun i => if i = 1 then [2] else [],
    alloc := fun _ => true }

/-- hOldValB is like hOldVal but with the holder 1 Black, so the hybrid
barrier does fire its shade of the new value; the old value 7 is still
White and still referenced. -/
def hOldValB : GCHeap :=
  { color := fun i => if i = 1 then Color.Black else Color.White,
    children := fun i => if i = 1 then [7] else [],
    alloc := fun _ => true }

/-- sweepRun is the concrete result of running sweepPhase on the
createObjectGraph heap from root 1: the heap unchanged, and the
root-reachable enumeration 1, 2, 4, 3, 4 with every object White and so
reported reclaimed. -/
def sweepRun : GCHeap × List (Nat × SweepClass) :=
  (createObjectGraph.1,
   [(1, SweepClass.Reclaimed), (2, SweepClass.Reclaimed), (4, SweepClass.Reclaimed),
    (3, SweepClass.Reclaimed), (4, SweepClass.Reclaimed)])



theorem whiteCount_mono {univ : List Nat} {cmap cmap' : Nat → Color}
    (h : ∀ i, cmap' i = Color.White → cmap i = Color.White) :
    whiteCount univ cmap' ≤ whiteCount univ cmap := by
  induction univ with
  | nil => simp [whiteCount]
  | cons hd tl ih =>
    simp only [whiteCount, List.filter] at *
    by_cases h1 : cmap' hd = Color.White
    · have h2 : cmap hd = Color.White := h hd h1
      simp [h1, h2]
      omega
    · by_cases h2 : cmap hd = Color.White <;> simp [h1, h2] <;> omega

theorem whiteCount_setGray {univ : List Nat} {cmap : Nat → Color} {c : Nat}
    (hc : c ∈ univ) (hw : cmap c = Color.White) :
    whiteCount univ (setColor cmap c Color.Gray) + 1 ≤ whiteCount univ cmap := by
  induction univ with
  | nil => cases hc
  | cons hd tl ih =>
    have hpt : ∀ i, setColor cmap c Color.Gray i = Color.White → cmap i = Color.White := by
      intro i hi
      by_cases hic : i = c
      · simp [setColor, hic] at hi
      · simpa [setColor, hic] using hi
    by_cases hdc : hd = c
    · have hnew : setColor cmap c Color.Gray hd ≠ Color.White := by
        simp [setColor, hdc]
      have hold : cmap hd = Color.White := hdc ▸ hw
      have htl : whiteCount tl (setColor cmap c Color.Gray) ≤ whiteCount tl cmap :=
        whiteCount_mono hpt
      simp only [whiteCount, List.filter] at *
      simp [hnew, hold]
      omega
    · have hc' : c ∈ tl := by
        cases hc with
        | head => exact absurd rfl (by exact fun h => hdc h.symm)
        | tail _ h => exact h
      have htl := ih hc'
      by_cases hhd : cmap hd = Color.White
      · have hnew : setColor cmap c Color.Gray hd = Color.White := by
          simp [setColor, hdc, hhd]
        simp only [whiteCount, List.filter] at *
        simp [hnew, hhd]
        omega
      · have hnew : setColor cmap c Color.Gray hd ≠ Color.White := by
          simp [setColor, hdc]
          exact hhd
        simp only [whiteCount, List.filter] at *
        simp [hnew, hhd]
        omega

theorem whiteCount_le_length (univ : List Nat) (cmap : Nat → Color) :
    whiteCount univ cmap ≤ univ.length :=
  List.length_filter_le _ _
theorem shadeChildren_queue_super :
    ∀ (cs : List Nat) (cmap : Nat → Color) (q : List Nat) (x : Nat),
      x ∈ q → x ∈ (shadeChildren cmap q cs).2 := by
  intro cs
  induction cs with
  | nil => intro cmap q x hx; simpa [shadeChildren] using hx
  | cons c rest ih =>
    intro cmap q x hx
    by_cases hc : cmap c = Color.White
    · simp only [shadeChildren, hc, if_pos]
      exact ih _ _ x (by simp [hx])
    · simp only [shadeChildren, hc, if_neg, not_false_iff]
      exact ih _ _ x hx

theorem shadeChildren_queue_origin :
    ∀ (cs : List Nat) (cmap : Nat → Color) (q : List Nat) (x : Nat),
      x ∈ (shadeChildren cmap q cs).2 → x ∈ q ∨ x ∈ cs := by
  intro cs
  induction cs with
  | nil => intro cmap q x hx; left; simpa [shadeChildren] using hx
  | cons c rest ih =>
    intro cmap q x hx
    by_cases hc : cmap c = Color.White
    · simp only [shadeChildren, hc, if_pos] at hx
      rcases ih _ _ x hx with h | h
      · rcases List.mem_append.mp h with h' | h'
        · exact Or.inl h'
        · right; simp at h'; simp [h']
      · right; simp [h]
    · simp only [shadeChildren, hc, if_neg, not_false_iff] at hx
      rcases ih _ _ x hx with h | h
      · exact Or.inl h
      · right; simp [h]

theorem shadeChildren_color_shape :
    ∀ (cs : List Nat) (cmap : Nat → Color) (q : List Nat) (x : Nat),
      (shadeChildren cmap q cs).1 x = cmap x ∨
        (cmap x = Color.White ∧ (shadeChildren cmap q cs).1 x = Color.Gray) := by
  intro cs
  induction cs with
  | nil => intro cmap q x; left; simp [shadeChildren]
  | cons c rest ih =>
    intro cmap q x
    by_cases hc : cmap c = Color.White
    · simp only [shadeChildren, hc, if_pos]
      rcases ih (setColor cmap c Color.Gray) (q ++ [c]) x with h | ⟨h1, h2⟩
      · by_cases hxc : x = c
        · subst hxc
          right
          refine ⟨hc, ?_⟩
          rw [h]; simp [setColor]
        · left; rw [h]; simp [setColor, hxc]
      · by_cases hxc : x = c
        · subst hxc
          simp [setColor] at h1
        · right
          constructor
          · simpa [setColor, hxc] using h1
          · exact h2
    · simp only [shadeChildren, hc, if_neg, not_false_iff]
      exact ih cmap q x

theorem shadeChildren_gray_queue :
    ∀ (cs : List Nat) (cmap : Nat → Color) (q : List Nat) (x : Nat),
      (shadeChildren cmap q cs).1 x = Color.Gray →
        cmap x = Color.Gray ∨ x ∈ (shadeChildren cmap q cs).2 := by
  intro cs
  induction cs with
  | nil => intro cmap q x hx; left; simpa [shadeChildren] using hx
  | cons c rest ih =>
    intro cmap q x hx
    by_cases hc : cmap c = Color.White
    · simp only [shadeChildren, hc, if_pos] at hx ⊢
      rcases ih _ _ x hx with h | h
      · by_cases hxc : x = c
        · right
          exact shadeChildren_queue_super rest _ _ x (by simp [hxc])
        · left; simpa [setColor, hxc] using h
      · exact Or.inr h
    · simp only [shadeChildren, hc, if_neg, not_false_iff] at hx ⊢
      exact ih _ _ x hx

theorem shadeChildren_nonwhite_pres :
    ∀ (cs : List Nat) (cmap : Nat → Color) (q : List Nat) (x : Nat),
      cmap x ≠ Color.White → (shadeChildren cmap q cs).1 x ≠ Color.White := by
  intro cs cmap q x hx hcontra
  rcases shadeChildren_color_shape cs cmap q x with h | ⟨h1, _⟩
  · exact hx (h ▸ hcontra)
  · exact hx h1

theorem shadeChildren_children_nonwhite :
    ∀ (cs : List Nat) (cmap : Nat → Color) (q : List Nat) (c : Nat),
      c ∈ cs → (shadeChildren cmap q cs).1 c ≠ Color.White := by
  intro cs
  induction cs with
  | nil => intro cmap q c hc; cases hc
  | cons c0 rest ih =>
    intro cmap q c hc
    by_cases h0 : cmap c0 = Color.White
    · simp only [shadeChildren, h0, if_pos]
      rcases List.mem_cons.mp hc with hcc | hcc
      · subst hcc
        apply shadeChildren_nonwhite_pres
        simp [setColor]
      · exact ih _ _ c hcc
    · simp only [shadeChildren, h0, if_neg, not_false_iff]
      rcases List.mem_cons.mp hc with hcc | hcc
      · subst hcc
        exact shadeChildren_nonwhite_pres rest cmap q c h0
      · exact ih _ _ c hcc

theorem shadeChildren_count {univ : List Nat} :
    ∀ (cs : List Nat) (cmap : Nat → Color) (q : List Nat),
      (∀ c ∈ cs, c ∈ univ) →
      whiteCount univ (shadeChildren cmap q cs).1 + (shadeChildren cmap q cs).2.length ≤
        whiteCount univ cmap + q.length := by
  intro cs
  induction cs with
  | nil => intro cmap q _; simp [shadeChildren]
  | cons c rest ih =>
    intro cmap q hcs
    by_cases hc : cmap c = Color.White
    · simp only [shadeChildren, hc, if_pos]
      have h1 := ih (setColor cmap c Color.Gray) (q ++ [c])
        (fun x hx => hcs x (List.mem_cons_of_mem _ hx))
      have h2 : whiteCount univ (setColor cmap c Color.Gray) + 1 ≤ whiteCount univ cmap :=
        whiteCount_setGray (hcs c (List.mem_cons_self _ _)) hc
      have h3 : (q ++ [c]).length = q.length + 1 := by simp
      omega
    · simp only [shadeChildren, hc, if_neg, not_false_iff]
      exact ih cmap q (fun x hx => hcs x (List.mem_cons_of_mem _ hx))

theorem shadeChildren_mono :
    ∀ (cs : List Nat) (cmap : Nat → Color) (q : List Nat) (x : Nat),
      ColorLe (cmap x) ((shadeChildren cmap q cs).1 x) := by
  intro cs cmap q x
  rcases shadeChildren_color_shape cs cmap q x with h | ⟨h1, h2⟩
  · rw [h]; exact colorLe_refl _
  · rw [h1, h2]; simp [ColorLe, Color.rank]

theorem markLoop_mono {g : Nat → List Nat} :
    ∀ (fuel : Nat) (q : List Nat) (cmap : Nat → Color) (f : Nat → Color),
      markLoop g fuel q cmap = some f → ∀ x, ColorLe (cmap x) (f x) := by
  intro fuel
  induction fuel with
  | zero =>
    intro q cmap f heq x
    cases q with
    | nil =>
      simp [markLoop] at heq
      rw [← heq]
      exact colorLe_refl _
    | cons cur rest => simp [markLoop] at heq
  | succ fuel ih =>
    intro q cmap f heq x
    cases q with
    | nil =>
      simp [markLoop] at heq
      rw [← heq]
      exact colorLe_refl _
    | cons cur rest =>
      simp only [markLoop] at heq
      have h1 := ih _ _ f heq x
      refine colorLe_trans (colorLe_trans (shadeChildren_mono (g cur) cmap rest x) ?_) h1
      by_cases hxc : x = cur
      · simp [setColor, hxc]
        exact colorLe_black _
      · simp [setColor, hxc]
        exact colorLe_refl _

theorem markLoop_spec {g : Nat → List Nat} :
    ∀ (fuel : Nat) (q : List Nat) (cmap : Nat → Color) (f : Nat → Color),
      markLoop g fuel q cmap = some f →
      GrayInQueue q cmap → BlackNoWhiteChild g cmap →
      (∀ x, f x ≠ Color.Gray) ∧ BlackNoWhiteChild g f := by
  intro fuel
  induction fuel with
  | zero =>
    intro q cmap f heq hA hC
    cases q with
    | nil =>
      simp [markLoop] at heq
      subst heq
      refine ⟨?_, hC⟩
      intro x hx
      exact absurd (hA x hx) (List.not_mem_nil x)
    | cons cur rest => simp [markLoop] at heq
  | succ fuel ih =>
    intro q cmap f heq hA hC
    cases q with
    | nil =>
      simp [markLoop] at heq
      subst heq
      refine ⟨?_, hC⟩
      intro x hx
      exact absurd (hA x hx) (List.not_mem_nil x)
    | cons cur rest =>
      simp only [markLoop] at heq
      set p := shadeChildren cmap rest (g cur) with hp
      set cmap2 := setColor p.1 cur Color.Black with hc2
      have hA2 : GrayInQueue p.2 cmap2 := by
        intro x hx
        have hxcur : x ≠ cur := by
          intro hcontra
          rw [hcontra] at hx
          simp [hc2, setColor] at hx
        have hx1 : p.1 x = Color.Gray := by
          simpa [hc2, setColor, hxcur] using hx
        rcases shadeChildren_gray_queue (g cur) cmap rest x hx1 with h | h
        · have := hA x h
          rcases List.mem_cons.mp this with h' | h'
          · exact absurd h' hxcur
          · exact shadeChildren_queue_super (g cur) cmap rest x h'
        · exact h
      have hC2 : BlackNoWhiteChild g cmap2 := by
        intro i hi c hcmem
        by_cases hicur : i = cur
        · subst hicur
          have hnw : p.1 c ≠ Color.White :=
            shadeChildren_children_nonwhite (g i) cmap rest c hcmem
          by_cases hccur : c = i
          · simp [hc2, setColor, hccur]
          · simpa [hc2, setColor, hccur] using hnw
        · have hip : p.1 i = Color.Black := by
            simpa [hc2, setColor, hicur] using hi
          have hiold : cmap i = Color.Black := by
            rcases shadeChildren_color_shape (g cur) cmap rest i with h | ⟨_, h2⟩
            · rw [← h]; exact hip
            · rw [hip] at h2; cases h2
          have hcw : cmap c ≠ Color.White := hC i hiold c hcmem
          have hp1 : p.1 c ≠ Color.White :=
            shadeChildren_nonwhite_pres (g cur) cmap rest c hcw
          by_cases hccur : c = cur
          · simp [hc2, setColor, hccur]
          · simpa [hc2, setColor, hccur] using hp1
      exact ih _ _ f heq hA2 hC2

theorem markLoop_succeeds {univ : List Nat} {g : Nat → List Nat} (hclosed : Closed univ g) :
    ∀ (fuel : Nat) (q : List Nat) (cmap : Nat → Color),
      (∀ x ∈ q, x ∈ univ) →
      2 * whiteCount univ cmap + q.length ≤ fuel →
      ∃ f, markLoop g fuel q cmap = some f := by
  intro fuel
  induction fuel with
  | zero =>
    intro q cmap hq hm
    cases q with
    | nil => exact ⟨cmap, by simp [markLoop]⟩
    | cons cur rest => simp at hm
  | succ fuel ih =>
    intro q cmap hq hm
    cases q with
    | nil => exact ⟨cmap, by simp [markLoop]⟩
    | cons cur rest =>
      simp only [markLoop]
      set p := shadeChildren cmap rest (g cur) with hp
      have hcur : cur ∈ univ := hq cur (List.mem_cons_self _ _)
      have hgc : ∀ c ∈ g cur, c ∈ univ := hclosed cur hcur
      have hq2 : ∀ x ∈ p.2, x ∈ univ := by
        intro x hx
        rcases shadeChildren_queue_origin (g cur) cmap rest x hx with h | h
        · exact hq x (List.mem_cons_of_mem _ h)
        · exact hgc x h
      have hcount : whiteCount univ p.1 + p.2.length ≤ whiteCount univ cmap + rest.length :=
        shadeChildren_count (g cur) cmap rest hgc
      have hmono1 : whiteCount univ p.1 ≤ whiteCount univ cmap := by
        apply whiteCount_mono
        intro i hi
        rcases shadeChildren_color_shape (g cur) cmap rest i with h | ⟨h1, h2⟩
        · rw [← h]; exact hi
        · rw [hi] at h2; cases h2
      have hmono2 : whiteCount univ (setColor p.1 cur Color.Black) ≤ whiteCount univ p.1 := by
        apply whiteCount_mono
        intro i hi
        by_cases hic : i = cur
        · simp [setColor, hic] at hi
        · simpa [setColor, hic] using hi
      apply ih p.2 (setColor p.1 cur Color.Black) hq2
      have hql : (cur :: rest).length = rest.length + 1 := by simp
      omega

theorem colorLe_white {a b : Color} (h : ColorLe a b) (hb : b = Color.White) :
    a = Color.White := by
  subst hb
  cases a <;> simp_all [ColorLe, Color.rank]

theorem gray_le_notgray {a : Color} (h : ColorLe Color.Gray a) (hg : a ≠ Color.Gray) :
    a = Color.Black := by
  cases a <;> simp_all [ColorLe, Color.rank]

theorem nonwhite_nongray_black {a : Color} (hw : a ≠ Color.White) (hg : a ≠ Color.Gray) :
    a = Color.Black := by
  cases a <;> simp_all

theorem reachable_head {g : Nat → List Nat} {x z y : Nat}
    (hz : z ∈ g x) (h : Reachable g z y) : Reachable g x y := by
  induction h with
  | refl => exact Reachable.tail (Reachable.refl x) hz
  | tail _ hmem ih => exact Reachable.tail ih hmem

theorem reach_in_univ {univ : List Nat} {g : Nat → List Nat} {root x : Nat}
    (hclosed : Closed univ g) (hroot : root ∈ univ) (h : Reachable g root x) :
    x ∈ univ := by
  induction h with
  | refl => exact hroot
  | tail _ hmem ih => exact hclosed _ ih _ hmem

theorem markObject_mono {g : Nat → List Nat} :
    ∀ fuel : Nat,
      (∀ (o : Nat) (cmap f : Nat → Color),
        markObjectF g fuel o cmap = some f → ∀ x, ColorLe (cmap x) (f x)) ∧
      (∀ (cs : List Nat) (cmap f : Nat → Color),
        markChildren g fuel cs cmap = some f → ∀ x, ColorLe (cmap x) (f x)) := by
  intro fuel
  induction fuel with
  | zero =>
    constructor
    · intro o cmap f heq
      simp [markObjectF] at heq
    · intro cs cmap f heq x
      cases cs with
      | nil =>
        simp [markChildren] at heq
        rw [← heq]; exact colorLe_refl _
      | cons c rest =>
        simp [markChildren, markObjectF] at heq
  | succ fuel ih =>
    have hP : ∀ (o : Nat) (cmap f : Nat → Color),
        markObjectF g (fuel + 1) o cmap = some f → ∀ x, ColorLe (cmap x) (f x) := by
      intro o cmap f heq x
      by_cases ho : cmap o = Color.White
      · simp only [markObjectF, ho, if_pos] at heq
        rcases hm : markChildren g fuel (g o) (setColor cmap o Color.Gray) with _ | m
        · rw [hm] at heq; cases heq
        · rw [hm] at heq
          simp only [Option.some.injEq] at heq
          subst heq
          have h1 : ColorLe (cmap x) (setColor cmap o Color.Gray x) := by
            by_cases hx : x = o
            · subst hx; simp [setColor, ho, ColorLe, Color.rank]
            · simp [setColor, hx]; exact colorLe_refl _
          have h2 := ih.2 (g o) _ m hm x
          have h3 : ColorLe (m x) (setColor m o Color.Black x) := by
            by_cases hx : x = o
            · subst hx; simp [setColor]; exact colorLe_black _
            · simp [setColor, hx]; exact colorLe_refl _
          exact colorLe_trans (colorLe_trans h1 h2) h3
      · simp only [markObjectF, ho, if_neg, not_false_iff] at heq
        simp only [Option.some.injEq] at heq
        subst heq; exact colorLe_refl _
    refine ⟨hP, ?_⟩
    intro cs
    induction cs with
    | nil =>
      intro cmap f heq x
      simp [markChildren] at heq
      rw [← heq]; exact colorLe_refl _
    | cons c rest ihc =>
      intro cmap f heq x
      simp only [markChildren] at heq
      rcases hm : markObjectF g (fuel + 1) c cmap with _ | m
      · rw [hm] at heq; cases heq
      · rw [hm] at heq
        exact colorLe_trans (hP c cmap m hm x) (ihc m f heq x)

theorem markObject_succeeds {univ : List Nat} {g : Nat → List Nat}
    (hclosed : Closed univ g) :
    ∀ fuel : Nat,
      (∀ (o : Nat) (cmap : Nat → Color), o ∈ univ → whiteCount univ cmap < fuel →
        (markObjectF g fuel o cmap).isSome = true) ∧
      (∀ (cs : List Nat) (cmap : Nat → Color), (∀ c ∈ cs, c ∈ univ) →
        whiteCount univ cmap < fuel → (markChildren g fuel cs cmap).isSome = true) := by
  intro fuel
  induction fuel with
  | zero =>
    constructor
    · intro o cmap _ hw; omega
    · intro cs cmap _ hw; omega
  | succ fuel ih =>
    have hP : ∀ (o : Nat) (cmap : Nat → Color), o ∈ univ →
        whiteCount univ cmap < fuel + 1 → (markObjectF g (fuel + 1) o cmap).isSome = true := by
      intro o cmap ho hw
      by_cases how : cmap o = Color.White
      · simp only [markObjectF, how, if_pos]
        have hdec : whiteCount univ (setColor cmap o Color.Gray) + 1 ≤ whiteCount univ cmap :=
          whiteCount_setGray ho how
        have hcall := ih.2 (g o) (setColor cmap o Color.Gray) (hclosed o ho) (by omega)
        rcases hm : markChildren g fuel (g o) (setColor cmap o Color.Gray) with _ | m
        · rw [hm] at hcall; simp at hcall
        · simp
      · simp [markObjectF, how]
    refine ⟨hP, ?_⟩
    intro cs
    induction cs with
    | nil => intro cmap _ _; simp [markChildren]
    | cons c rest ihc =>
      intro cmap hcs hw
      simp only [markChildren]
      have h1 := hP c cmap (hcs c (List.mem_cons_self _ _)) hw
      rcases hm : markObjectF g (fuel + 1) c cmap with _ | m
      · rw [hm] at h1; simp at h1
      · have hmono := (markObject_mono (fuel + 1)).1 c cmap m hm
        have hwm : whiteCount univ m ≤ whiteCount univ cmap := by
          apply whiteCount_mono
          intro i hi
          exact colorLe_white (hmono i) hi
        exact ihc m (fun x hx => hcs x (List.mem_cons_of_mem _ hx)) (by omega)

theorem collect_sound {g : Nat → List Nat} :
    ∀ fuel : Nat,
      (∀ (o : Nat) (l : List Nat), collectAllF g fuel o = some l →
        ∀ x ∈ l, Reachable g o x) ∧
      (∀ (cs : List Nat) (l : List Nat), collectKids g fuel cs = some l →
        ∀ x ∈ l, ∃ c ∈ cs, Reachable g c x) := by
  intro fuel
  induction fuel with
  | zero =>
    constructor
    · intro o l heq
      simp [collectAllF] at heq
    · intro cs l heq x hx
      cases cs with
      | nil =>
        simp [collectKids] at heq
        subst heq; cases hx
      | cons c rest =>
        simp [collectKids, collectAllF] at heq
  | succ fuel ih =>
    have hP : ∀ (o : Nat) (l : List Nat), collectAllF g (fuel + 1) o = some l →
        ∀ x ∈ l, Reachable g o x := by
      intro o l heq x hx
      simp only [collectAllF] at heq
      obtain ⟨c, hc, hr⟩ := ih.2 (g o) l heq x hx
      exact reachable_head hc hr
    refine ⟨hP, ?_⟩
    intro cs
    induction cs with
    | nil =>
      intro l heq x hx
      simp [collectKids] at heq
      subst heq; cases hx
    | cons c rest ihc =>
      intro l heq x hx
      simp only [collectKids] at heq
      rcases h1 : collectAllF g (fuel + 1) c with _ | l1
      · rw [h1] at heq; cases heq
      · rw [h1] at heq
        rcases h2 : collectKids g (fuel + 1) rest with _ | l2
        · rw [h2] at heq; cases heq
        · rw [h2] at heq
          simp only [Option.some.injEq] at heq
          subst heq
          rcases List.mem_cons.mp hx with hxc | hx'
          · exact ⟨c, List.mem_cons_self _ _, by rw [hxc]; exact Reachable.refl c⟩
          · rcases List.mem_append.mp hx' with hx1 | hx2
            · exact ⟨c, List.mem_cons_self _ _, hP c l1 h1 x hx1⟩
            · obtain ⟨c', hc', hr⟩ := ihc l2 h2 x hx2
              exact ⟨c', List.mem_cons_of_mem _ hc', hr⟩

theorem sweepPhase_shape {h : GCHeap} {fuel root : Nat}
    {r : GCHeap × List (Nat × SweepClass)} (heq : sweepPhase h fuel root = some r) :
    r.1 = h ∧ (∀ p ∈ r.2, p.2 = sweepClassify (h.color p.1)) ∧
      (∀ p ∈ r.2, Reachable h.children root p.1) := by
  rcases hc : collectAllF h.children fuel root with _ | contrib
  · rw [sweepPhase, hc] at heq; cases heq
  · rw [sweepPhase, hc] at heq
    simp only [Option.some.injEq] at heq
    subst heq
    refine ⟨rfl, ?_, ?_⟩
    · intro p hp
      simp only [List.mem_map] at hp
      obtain ⟨i, _, hpi⟩ := hp
      rw [← hpi]
    · intro p hp
      simp only [List.mem_map] at hp
      obtain ⟨i, hi, hpi⟩ := hp
      have hfst : p.1 = i := by rw [← hpi]
      rw [hfst]
      rcases List.mem_cons.mp hi with hroot | hcontrib
      · rw [hroot]; exact Reachable.refl root
      · exact (collect_sound fuel).1 root contrib hc i hcontrib

/-- C1: Marking completeness.  When `markPhase` is seeded with the root
of an object graph whose objects all start White (the cycle-start state
established by `initializeColors`) and whose references stay inside the
allocated universe, the drained loop returns, every object reachable
from the root is Black, and the subsequent `sweepPhase` classification
of such an object is the survivor branch, never the reclaimed one. -/
theorem mark_completeness (univ : List Nat) (g : Nat → List Nat) (root : Nat)
    (cmap : Nat → Color) (hclosed : Closed univ g) (hroot : root ∈ univ)
    (hwhite : ∀ y, cmap y = Color.White) :
    ∃ f, markPhase g root cmap (2 * univ.length + 1) = some f ∧
      ∀ x, Reachable g root x →
        f x = Color.Black ∧ sweepClassify (f x) = SweepClass.Survives := by
  have hwc : whiteCount univ (setColor cmap root Color.Gray) ≤ univ.length :=
    whiteCount_le_length _ _
  obtain ⟨f, heq⟩ := markLoop_succeeds hclosed (2 * univ.length + 1) [root]
    (setColor cmap root Color.Gray)
    (fun x hx => by
      rcases List.mem_cons.mp hx with h | h
      · exact h ▸ hroot
      · cases h)
    (by simp; omega)
  have hA : GrayInQueue [root] (setColor cmap root Color.Gray) := by
    intro x hx
    by_cases hxr : x = root
    · simp [hxr]
    · simp [setColor, hxr, hwhite x] at hx
  have hC : BlackNoWhiteChild g (setColor cmap root Color.Gray) := by
    intro i hi
    by_cases hir : i = root
    · simp [setColor, hir] at hi
    · simp [setColor, hir, hwhite i] at hi
  obtain ⟨hnogray, hblackinv⟩ := markLoop_spec _ _ _ _ heq hA hC
  have hmono := markLoop_mono _ _ _ _ heq
  have hrootblack : f root = Color.Black := by
    have h1 : ColorLe Color.Gray (f root) := by
      have := hmono root
      simpa [setColor] using this
    exact gray_le_notgray h1 (hnogray root)
  refine ⟨f, heq, ?_⟩
  intro x hx
  have hblack : f x = Color.Black := by
    induction hx with
    | refl => exact hrootblack
    | tail hr hmem ih =>
      exact nonwhite_nongray_black (hblackinv _ ih _ hmem) (hnogray _)
  exact ⟨hblack, by rw [hblack]; rfl⟩

/-- C1 witness: on the concrete chain graph 1 to 2 to 3 with all objects
initially White, marking succeeds and object 3 comes out Black and is
classified a survivor by the sweep. -/
theorem mark_completeness_witness :
    Closed [1, 2, 3] gChain ∧
    ∃ f, markPhase gChain 1 allWhite 7 = some f ∧
      f 3 = Color.Black ∧ sweepClassify (f 3) = SweepClass.Survives := by
  have hcl : Closed [1, 2, 3] gChain := by unfold Closed; decide
  refine ⟨hcl, ?_⟩
  obtain ⟨f, heq, hall⟩ :=
    mark_completeness [1, 2, 3] gChain 1 allWhite hcl (by decide) (fun y => rfl)
  have hreach : Reachable gChain 1 3 := by
    have h12 : (2 : Nat) ∈ gChain 1 := by decide
    have h23 : (3 : Nat) ∈ gChain 2 := by decide
    exact Reachable.tail (Reachable.tail (Reachable.refl 1) h12) h23
  exact ⟨f, heq, (hall 3 hreach).1, (hall 3 hreach).2⟩

/-- C9: Termination on cyclic graphs.  On any finite closed object
graph, cycles included, both the worklist-driven `markPhase` and the
recursive `markObject` return within an explicit fuel bound derived
from the universe size, because an object that is no longer White is
skipped on rediscovery. -/
theorem marking_terminates (univ : List Nat) (g : Nat → List Nat) (root : Nat)
    (cmap : Nat → Color) (hclosed : Closed univ g) (hroot : root ∈ univ) :
    (∃ f, markPhase g root cmap (2 * univ.length + 1) = some f) ∧
    (∃ f, markObjectF g (univ.length + 1) root cmap = some f) := by
  constructor
  · have hwc : whiteCount univ (setColor cmap root Color.Gray) ≤ univ.length :=
      whiteCount_le_length _ _
    exact markLoop_succeeds hclosed (2 * univ.length + 1) [root]
      (setColor cmap root Color.Gray)
      (fun x hx => by
        rcases List.mem_cons.mp hx with h | h
        · exact h ▸ hroot
        · cases h)
      (by simp; omega)
  · have hwc : whiteCount univ cmap ≤ univ.length := whiteCount_le_length _ _
    have := (markObject_succeeds hclosed (univ.length + 1)).1 root cmap hroot (by omega)
    exact Option.isSome_iff_exists.mp this

/-- C9 witness: on the concrete two-object reference cycle, both marking
procedures return within the stated fuel. -/
theorem marking_terminates_witness :
    Closed [1, 2] gCycle ∧
    (∃ f, markPhase gCycle 1 allWhite 5 = some f) ∧
    (∃ f, markObjectF gCycle 3 1 allWhite = some f) := by
  have hcl : Closed [1, 2] gCycle := by unfold Closed; decide
  have h := marking_terminates [1, 2] gCycle 1 allWhite hcl (by decide)
  exact ⟨hcl, h.1, h.2⟩

theorem dijkstra_color_eq (h : GCHeap) (a b : Nat) :
    (dijkstraWriteBarrier h a b).color =
      if h.color a = Color.Black ∧ h.color b = Color.White
      then setColor h.color b Color.Gray else h.color := by
  by_cases hc : h.color a = Color.Black ∧ h.color b = Color.White <;>
    simp [dijkstraWriteBarrier, hc]

theorem dijkstra_children_eq (h : GCHeap) (a b : Nat) :
    (dijkstraWriteBarrier h a b).children =
      fun i => if i = a then h.children a ++ [b] else h.children i := by
  by_cases hc : h.color a = Color.Black ∧ h.color b = Color.White <;>
    simp [dijkstraWriteBarrier, hc]

theorem dijkstra_alloc_eq (h : GCHeap) (a b : Nat) :
    (dijkstraWriteBarrier h a b).alloc = h.alloc := by
  by_cases hc : h.color a = Color.Black ∧ h.color b = Color.White <;>
    simp [dijkstraWriteBarrier, hc]

theorem yuasa_color_eq (h : GCHeap) (a b : Nat) :
    (yuasaWriteBarrier h a b).color =
      if h.color a = Color.Gray ∧ h.color b = Color.White
      then setColor h.color b Color.Gray else h.color := by
  by_cases hc : h.color a = Color.Gray ∧ h.color b = Color.White <;>
    simp [yuasaWriteBarrier, hc]

theorem hybrid_color_eq (h : GCHeap) (a b : Nat) :
    (hybridWriteBarrier h a b).color =
      if h.color a = Color.Black ∧ h.color b = Color.White
      then setColor h.color b Color.Gray
      else if h.color a = Color.Gray ∧ h.color b = Color.White
      then setColor h.color b Color.Gray
      else h.color := by
  by_cases hc1 : h.color a = Color.Black ∧ h.color b = Color.White
  · simp [hybridWriteBarrier, hc1]
  · by_cases hc2 : h.color a = Color.Gray ∧ h.color b = Color.White <;>
      simp [hybridWriteBarrier, hc1, hc2]

theorem hybrid_children_eq (h : GCHeap) (a b : Nat) :
    (hybridWriteBarrier h a b).children =
      fun i => if i = a then h.children a ++ [b] else h.children i := by
  by_cases hc1 : h.color a = Color.Black ∧ h.color b = Color.White
  · simp [hybridWriteBarrier, hc1]
  · by_cases hc2 : h.color a = Color.Gray ∧ h.color b = Color.White <;>
      simp [hybridWriteBarrier, hc1, hc2]

theorem sweepRun_eq : sweepPhase createObjectGraph.1 8 1 = some sweepRun := by
  have hc : collectAllF createObjectGraph.1.children 8 1 = some [2, 4, 3, 4] := by
    simp [collectAllF, collectKids, createObjectGraph]
  simp only [sweepPhase, hc]
  simp [sweepRun, createObjectGraph, sweepClassify]

/-- C10: Sweeper frame property.  Whenever sweepPhase returns, the heap
component of its result is pointwise the input heap: every object keeps
its color, its children list and its allocation status; the sweep only
traverses and reports.  (On a cyclic graph the source recursion does not
return at all, modelled by fuel exhaustion yielding none.) -/
theorem sweep_frame (h : GCHeap) (fuel root : Nat)
    (r : GCHeap × List (Nat × SweepClass)) (heq : sweepPhase h fuel root = some r) :
    (∀ x, r.1.color x = h.color x) ∧ (∀ x, r.1.children x = h.children x) ∧
    (∀ x, r.1.alloc x = h.alloc x) := by
  have h1 := (sweepPhase_shape heq).1
  rw [h1]
  exact ⟨fun x => rfl, fun x => rfl, fun x => rfl⟩

/-- C10 witness: running sweepPhase on the createObjectGraph heap
returns the sweepRun report and leaves object state untouched. -/
theorem sweep_frame_witness :
    sweepPhase createObjectGraph.1 8 1 = some sweepRun ∧
    sweepRun.1.color 99 = createObjectGraph.1.color 99 ∧
    sweepRun.1.children 1 = createObjectGraph.1.children 1 ∧
    sweepRun.1.alloc 99 = createObjectGraph.1.alloc 99 := by
  have heq : sweepPhase createObjectGraph.1 8 1 = some sweepRun := sweepRun_eq
  have h := sweep_frame createObjectGraph.1 8 1 sweepRun heq
  exact ⟨heq, h.1 99, h.2.1 1, h.2.2 99⟩

/-- C6 counterexample: in the createObjectGraph heap the orphan object
99 is unreachable from the root, yet the sweep never enumerates it (no
report entry carries identity 99) and does not free it (its allocation
status is untouched), because sweepPhase walks only from the root object
it is given and reclaims nothing. -/
theorem sweep_unreachable_counterexample :
    ((sweepPhase createObjectGraph.1 8 1).map
      (fun r => (r.2.all fun p => p.1 != 99) && r.1.alloc 99)) = some true ∧
    ¬ Reachable createObjectGraph.1.children 1 99 := by
  constructor
  · rw [sweepRun_eq]
    simp [sweepRun, createObjectGraph]
  · intro hr
    have h99 : (99 : Nat) ∈ [1, 2, 3, 4] :=
      @reach_in_univ [1, 2, 3, 4] createObjectGraph.1.children 1 99 (by unfold Closed; decide) (by decide) hr
    simp at h99

/-- C6 amended: sweepPhase enumerates only objects reachable from the
root object it is handed (not an allocator-wide index), and it frees
nothing: every object's allocation status is unchanged, so unreachable
objects are neither visited nor reclaimed. -/
theorem sweep_enumerates_reachable_only (h : GCHeap) (fuel root : Nat)
    (r : GCHeap × List (Nat × SweepClass)) (heq : sweepPhase h fuel root = some r) :
    (∀ x, r.1.alloc x = h.alloc x) ∧
    (∀ p ∈ r.2, Reachable h.children root p.1) := by
  have hs := sweepPhase_shape heq
  exact ⟨fun x => by rw [hs.1], hs.2.2⟩

/-- C6 amended witness: the concrete sweep run on createObjectGraph
keeps the orphan allocated and every enumerated identity, such as 4, is
reachable from the root. -/
theorem sweep_enumerates_reachable_only_witness :
    sweepRun.1.alloc 99 = createObjectGraph.1.alloc 99 ∧
    Reachable createObjectGraph.1.children 1 4 := by
  have heq : sweepPhase createObjectGraph.1 8 1 = some sweepRun := sweepRun_eq
  have h := sweep_enumerates_reachable_only createObjectGraph.1 8 1 sweepRun heq
  refine ⟨h.1 99, ?_⟩
  have hmem : ((4 : Nat), SweepClass.Reclaimed) ∈ sweepRun.2 := by decide
  exact h.2 (4, SweepClass.Reclaimed) hmem

/-- C3: a shaded object survives the cycle.  If A is Black and B is
White and the Dijkstra barrier fires for the store A.field = B, then B
is Gray right after the barrier, and after any completed sweepPhase B is
still not White and no report entry for B is the reclaimed
classification. -/
theorem barrier_shaded_survives (h : GCHeap) (a b root fuel : Nat)
    (ha : h.color a = Color.Black) (hb : h.color b = Color.White) :
    (dijkstraWriteBarrier h a b).color b = Color.Gray ∧
    ∀ r, sweepPhase (dijkstraWriteBarrier h a b) fuel root = some r →
      r.1.color b ≠ Color.White ∧ ∀ p ∈ r.2, p.1 = b → p.2 ≠ SweepClass.Reclaimed := by
  have hcol : (dijkstraWriteBarrier h a b).color b = Color.Gray := by
    rw [dijkstra_color_eq]
    simp [ha, hb, setColor]
  refine ⟨hcol, ?_⟩
  intro r heq
  have hs := sweepPhase_shape heq
  constructor
  · rw [hs.1, hcol]
    simp
  · intro p hp hpb
    have hcls := hs.2.1 p hp
    rw [hcls, hpb, hcol]
    simp [sweepClassify]

/-- C3 witness: the spec's literal three-object test, Root 1 holding
Black A = 2 and unreached White B = 3; after the barrier for the store
A.field = B and a full sweep, B is Gray, not reclaimed. -/
theorem barrier_shaded_survives_witness :
    (dijkstraWriteBarrier hLiteral 2 3).color 3 = Color.Gray ∧
    (dijkstraWriteBarrier hLiteral 2 3,
      [(1, SweepClass.Survives), (2, SweepClass.Survives),
       (3, SweepClass.Abnormal)]).1.color 3 ≠ Color.White ∧
    ((3 : Nat), SweepClass.Abnormal).2 ≠ SweepClass.Reclaimed := by
  have h := barrier_shaded_survives hLiteral 2 3 1 8 rfl rfl
  have heq : sweepPhase (dijkstraWriteBarrier hLiteral 2 3) 8 1 =
      some (dijkstraWriteBarrier hLiteral 2 3,
        [(1, SweepClass.Survives), (2, SweepClass.Survives), (3, SweepClass.Abnormal)]) := by
    have hch : (dijkstraWriteBarrier hLiteral 2 3).children =
        fun i => if i = 2 then [3] else if i = 1 then [2] else [] := by
      rw [dijkstra_children_eq]
      funext i
      by_cases h2 : i = 2 <;> by_cases h1 : i = 1 <;> simp [h1, h2, hLiteral]
    have hc : collectAllF (dijkstraWriteBarrier hLiteral 2 3).children 8 1 =
        some [2, 3] := by
      simp [hch, collectAllF, collectKids]
    have hcol : (dijkstraWriteBarrier hLiteral 2 3).color =
        fun i => if i = 3 then Color.Gray
          else if i = 1 then Color.Black else if i = 2 then Color.Black
          else Color.White := by
      rw [dijkstra_color_eq]
      funext i
      by_cases h3 : i = 3 <;> by_cases h1 : i = 1 <;> by_cases h2 : i = 2 <;>
        simp [h1, h2, h3, hLiteral, setColor]
    simp only [sweepPhase, hc]
    simp [hcol, sweepClassify]
  have h2 := h.2 (dijkstraWriteBarrier hLiteral 2 3,
    [(1, SweepClass.Survives), (2, SweepClass.Survives), (3, SweepClass.Abnormal)]) heq
  refine ⟨h.1, h2.1, ?_⟩
  have hmem : ((3 : Nat), SweepClass.Abnormal) ∈
      [((1 : Nat), SweepClass.Survives), (2, SweepClass.Survives),
       (3, SweepClass.Abnormal)] := by decide
  exact h2.2 (3, SweepClass.Abnormal) hmem rfl

/-- C2 counterexample: the source hybrid barrier never loads the value
being overwritten.  Holder 1 already references the White object 7;
storing the new reference 2 leaves 7 White — both when the holder is
White (hOldVal) and when the holder is Black (hOldValB), where the
barrier does fire and shades the new value 2 — so the old-value shade
the claim requires never happens. -/
theorem hybrid_old_value_counterexample :
    hOldVal.children 1 = [7] ∧ hOldVal.color 7 = Color.White ∧
    (hybridWriteBarrier hOldVal 1 2).color 7 = Color.White ∧
    (hybridWriteBarrier hOldVal 1 2).children 1 = [7, 2] ∧
    hOldValB.children 1 = [7] ∧ hOldValB.color 1 = Color.Black ∧
    (hybridWriteBarrier hOldValB 1 2).color 2 = Color.Gray ∧
    (hybridWriteBarrier hOldValB 1 2).color 7 = Color.White := by
  refine ⟨rfl, rfl, ?_, ?_, rfl, rfl, ?_, ?_⟩ <;> rfl

/-- C2 amended: on store(holder, field, newRef) the source hybrid
barrier shades only the new value, and only when the holder is Black or
Gray and the new value White; it changes no other object's color — in
particular any previously held (old) value keeps its color — and a
White holder shades nothing at all. -/
theorem hybrid_new_value_only (h : GCHeap) (a b x : Nat) (hxb : x ≠ b) :
    (hybridWriteBarrier h a b).color x = h.color x ∧
    (h.color b = Color.White → h.color a = Color.Black ∨ h.color a = Color.Gray →
      (hybridWriteBarrier h a b).color b = Color.Gray) ∧
    (h.color a = Color.White → ∀ y, (hybridWriteBarrier h a b).color y = h.color y) := by
  refine ⟨?_, ?_, ?_⟩
  · rw [hybrid_color_eq]
    by_cases hc1 : h.color a = Color.Black ∧ h.color b = Color.White
    · simp [hc1, setColor, hxb]
    · by_cases hc2 : h.color a = Color.Gray ∧ h.color b = Color.White <;>
        simp [hc1, hc2, setColor, hxb]
  · intro hbw hag
    rw [hybrid_color_eq]
    rcases hag with hB | hG
    · simp [hB, hbw, setColor]
    · simp [hG, hbw, setColor]
  · intro hw y
    rw [hybrid_color_eq]
    simp [hw]

/-- C2 amended witness: with Black holder 1 referencing 7 and storing 2,
the new value 2 is shaded, the old value 7 is untouched; with White
holder nothing is shaded. -/
theorem hybrid_new_value_only_witness :
    (hybridWriteBarrier hOldValB 1 2).color 7 = hOldValB.color 7 ∧
    (hybridWriteBarrier hOldValB 1 2).color 2 = Color.Gray ∧
    (hybridWriteBarrier hOldVal 1 2).color 7 = hOldVal.color 7 := by
  have h1 := hybrid_new_value_only hOldValB 1 2 7 (by decide)
  have h2 := hybrid_new_value_only hOldVal 1 2 7 (by decide)
  exact ⟨h1.1, h1.2.1 rfl (Or.inl rfl), h2.2.2 rfl 7⟩

/-- C5 counterexample: with Black holder 1 and White newRef 2 the
Dijkstra barrier shades 2 Gray but enqueues nothing: an ambient gray
worklist that is empty before the barrier is still empty after it, so 2
is not on it as the claim requires. -/
theorem dijkstra_no_enqueue_counterexample :
    hBW.color 1 = Color.Black ∧ hBW.color 2 = Color.White ∧
    (dijkstraWriteBarrierWL [] hBW 1 2).2.color 2 = Color.Gray ∧
    ¬ 2 ∈ (dijkstraWriteBarrierWL [] hBW 1 2).1 := by
  refine ⟨rfl, rfl, rfl, ?_⟩
  intro hmem
  cases hmem

/-- C5 amended: on store(holder, field, newRef) with Black holder and
White newRef, the source barrier shades newRef Gray and then performs
the store (appending newRef to the holder's reference list), but it
enqueues nothing — the barrier body mentions no worklist, so any
ambient gray worklist is unchanged. -/
theorem dijkstra_shades_without_enqueue (wl : List Nat) (h : GCHeap) (a b : Nat)
    (ha : h.color a = Color.Black) (hb : h.color b = Color.White) :
    (dijkstraWriteBarrierWL wl h a b).1 = wl ∧
    (dijkstraWriteBarrierWL wl h a b).2.color b = Color.Gray ∧
    (dijkstraWriteBarrierWL wl h a b).2.children a = h.children a ++ [b] := by
  refine ⟨rfl, ?_, ?_⟩
  · show (dijkstraWriteBarrier h a b).color b = Color.Gray
    rw [dijkstra_color_eq]
    simp [ha, hb, setColor]
  · show (dijkstraWriteBarrier h a b).children a = h.children a ++ [b]
    rw [dijkstra_children_eq]
    simp

/-- C5 amended witness: the concrete Black-holder White-child store
shades and stores but leaves the empty worklist empty. -/
theorem dijkstra_shades_without_enqueue_witness :
    (dijkstraWriteBarrierWL [] hBW 1 2).1 = [] ∧
    (dijkstraWriteBarrierWL [] hBW 1 2).2.color 2 = Color.Gray ∧
    (dijkstraWriteBarrierWL [] hBW 1 2).2.children 1 = hBW.children 1 ++ [2] :=
  dijkstra_shades_without_enqueue [] hBW 1 2 rfl rfl

/-- C7 counterexample: the source barriers consult no phase state at
all — no phase flag exists in the code — and each variant changes a
color whenever its color condition holds, so none of them is a no-op
outside marking phases. -/
theorem barrier_not_gated_counterexample :
    hBW.color 2 = Color.White ∧
    (dijkstraWriteBarrier hBW 1 2).color 2 ≠ hBW.color 2 ∧
    hGW.color 2 = Color.White ∧
    (yuasaWriteBarrier hGW 1 2).color 2 ≠ hGW.color 2 ∧
    (hybridWriteBarrier hBW 1 2).color 2 ≠ hBW.color 2 ∧
    (hybridWriteBarrier hGW 1 2).color 2 ≠ hGW.color 2 := by
  refine ⟨rfl, ?_, rfl, ?_, ?_, ?_⟩ <;> decide

/-- C7 amended: the barriers are never phase-gated: each variant,
whenever invoked, unconditionally applies its shading rule — Dijkstra on
a Black holder and White child, Yuasa on a Gray holder and White child,
hybrid on either — independent of any collector phase, since the code
carries no phase flag. -/
theorem barrier_unconditional (h : GCHeap) (a b : Nat) :
    (h.color a = Color.Black → h.color b = Color.White →
      (dijkstraWriteBarrier h a b).color b = Color.Gray) ∧
    (h.color a = Color.Gray → h.color b = Color.White →
      (yuasaWriteBarrier h a b).color b = Color.Gray) ∧
    (h.color a = Color.Black ∨ h.color a = Color.Gray → h.color b = Color.White →
      (hybridWriteBarrier h a b).color b = Color.Gray) := by
  refine ⟨?_, ?_, ?_⟩
  · intro ha hb
    rw [dijkstra_color_eq]
    simp [ha, hb, setColor]
  · intro ha hb
    rw [yuasa_color_eq]
    simp [ha, hb, setColor]
  · intro hag hb
    rw [hybrid_color_eq]
    rcases hag with hB | hG
    · simp [hB, hb, setColor]
    · simp [hG, hb, setColor]

/-- C7 amended witness: all three variants shade on their concrete
trigger heaps. -/
theorem barrier_unconditional_witness :
    (dijkstraWriteBarrier hBW 1 2).color 2 = Color.Gray ∧
    (yuasaWriteBarrier hGW 1 2).color 2 = Color.Gray ∧
    (hybridWriteBarrier hGW 1 2).color 2 = Color.Gray :=
  ⟨(barrier_unconditional hBW 1 2).1 rfl rfl,
   (barrier_unconditional hGW 1 2).2.1 rfl rfl,
   (barrier_unconditional hGW 1 2).2.2 (Or.inr rfl) rfl⟩

/-- C8 counterexample: invoking the Dijkstra barrier twice with the same
holder and reference appends the reference twice — the holder's
reference list grows on every call, unlike the at-most-once effect the
claim requires. -/
theorem dijkstra_double_append_counterexample :
    (dijkstraWriteBarrier hBW 1 2).children 1 = [2] ∧
    (dijkstraWriteBarrier (dijkstraWriteBarrier hBW 1 2) 1 2).children 1 = [2, 2] := by
  constructor <;> rfl

/-- C8 amended: repeating the Dijkstra barrier with the same arguments
promotes the target's color at most once — the second call changes no
color — but appends the reference unconditionally on every call, so the
holder's reference list grows by one entry per call. -/
theorem dijkstra_idempotent_color_only (h : GCHeap) (a b : Nat) :
    (∀ x, (dijkstraWriteBarrier (dijkstraWriteBarrier h a b) a b).color x =
      (dijkstraWriteBarrier h a b).color x) ∧
    (dijkstraWriteBarrier (dijkstraWriteBarrier h a b) a b).children a =
      h.children a ++ [b] ++ [b] := by
  constructor
  · intro x
    rw [dijkstra_color_eq (dijkstraWriteBarrier h a b) a b]
    by_cases hc : h.color a = Color.Black ∧ h.color b = Color.White
    · have hb : (dijkstraWriteBarrier h a b).color b = Color.Gray := by
        rw [dijkstra_color_eq]
        simp [hc, setColor]
      have hcond : ¬ ((dijkstraWriteBarrier h a b).color a = Color.Black ∧
          (dijkstraWriteBarrier h a b).color b = Color.White) := by
        rintro ⟨_, h2⟩
        rw [hb] at h2
        cases h2
      simp [hcond]
    · have heq : (dijkstraWriteBarrier h a b).color = h.color := by
        rw [dijkstra_color_eq]
        simp [hc]
      rw [heq]
      simp [hc]
  · rw [dijkstra_children_eq (dijkstraWriteBarrier h a b) a b,
      dijkstra_children_eq h a b]
    simp

theorem setGray_mono {cmap : Nat → Color} {b : Nat} (hb : cmap b = Color.White)
    (x : Nat) : ColorLe (cmap x) (setColor cmap b Color.Gray x) := by
  by_cases hxb : x = b
  · subst hxb
    rw [hb]
    simp [setColor]
    exact white_colorLe _
  · simp [setColor, hxb]
    exact colorLe_refl _

/-- C4: Monotone color.  Within one cycle, the marking loop, the
recursive markObject, and every write-barrier variant only move colors
forward along White, Gray, Black; markPhase itself unconditionally grays
its root, so its conjunct carries the cycle-start hypothesis that the
root is not already Black (all objects are White when a cycle begins). -/
theorem monotone_color :
    (∀ (g : Nat → List Nat) (fuel : Nat) (q : List Nat) (cmap f : Nat → Color),
      markLoop g fuel q cmap = some f → ∀ x, ColorLe (cmap x) (f x)) ∧
    (∀ (g : Nat → List Nat) (root fuel : Nat) (cmap f : Nat → Color),
      cmap root ≠ Color.Black → markPhase g root cmap fuel = some f →
      ∀ x, ColorLe (cmap x) (f x)) ∧
    (∀ (g : Nat → List Nat) (fuel o : Nat) (cmap f : Nat → Color),
      markObjectF g fuel o cmap = some f → ∀ x, ColorLe (cmap x) (f x)) ∧
    (∀ (h : GCHeap) (a b x : Nat),
      ColorLe (h.color x) ((dijkstraWriteBarrier h a b).color x) ∧
      ColorLe (h.color x) ((yuasaWriteBarrier h a b).color x) ∧
      ColorLe (h.color x) ((hybridWriteBarrier h a b).color x)) := by
  refine ⟨?_, ?_, ?_, ?_⟩
  · intro g fuel q cmap f heq x
    exact markLoop_mono fuel q cmap f heq x
  · intro g root fuel cmap f hroot heq x
    have h1 := markLoop_mono fuel [root] (setColor cmap root Color.Gray) f heq x
    refine colorLe_trans ?_ h1
    by_cases hxr : x = root
    · subst hxr
      simp only [setColor, if_pos rfl]
      cases hcr : cmap x
      · exact white_colorLe _
      · exact colorLe_refl _
      · exact absurd hcr hroot
    · simp [setColor, hxr]
      exact colorLe_refl _
  · intro g fuel o cmap f heq x
    exact (markObject_mono fuel).1 o cmap f heq x
  · intro h a b x
    refine ⟨?_, ?_, ?_⟩
    · rw [dijkstra_color_eq]
      split_ifs with hc
      · exact setGray_mono hc.2 x
      · exact colorLe_refl _
    · rw [yuasa_color_eq]
      split_ifs with hc
      · exact setGray_mono hc.2 x
      · exact colorLe_refl _
    · rw [hybrid_color_eq]
      split_ifs with hc1 hc2
      · exact setGray_mono hc1.2 x
      · exact setGray_mono hc2.2 x
      · exact colorLe_refl _

/-- C4 witness: concrete monotone runs of the marking loop, markPhase on
a non-Black root, markObject on the concrete cycle, and the three
barriers on their trigger heaps. -/
theorem monotone_color_witness :
    ∃ f1 f2 f3,
      markLoop gChain 7 [1] allWhite = some f1 ∧ ColorLe (allWhite 2) (f1 2) ∧
      allWhite 1 ≠ Color.Black ∧
      markPhase gChain 1 allWhite 7 = some f2 ∧ ColorLe (allWhite 3) (f2 3) ∧
      markObjectF gCycle 3 1 allWhite = some f3 ∧ ColorLe (allWhite 2) (f3 2) ∧
      ColorLe (hBW.color 2) ((dijkstraWriteBarrier hBW 1 2).color 2) ∧
      ColorLe (hGW.color 2) ((yuasaWriteBarrier hGW 1 2).color 2) ∧
      ColorLe (hGW.color 2) ((hybridWriteBarrier hGW 1 2).color 2) := by
  have hs1 : (markLoop gChain 7 [1] allWhite).isSome = true := by decide
  have hs2 : (markPhase gChain 1 allWhite 7).isSome = true := by decide
  have hcl : Closed [1, 2] gCycle := by unfold Closed; decide
  have hs3 : (markObjectF gCycle 3 1 allWhite).isSome = true :=
    (@markObject_succeeds [1, 2] gCycle hcl 3).1 1 allWhite (by decide) (by decide)
  refine ⟨(markLoop gChain 7 [1] allWhite).get hs1,
          (markPhase gChain 1 allWhite 7).get hs2,
          (markObjectF gCycle 3 1 allWhite).get hs3,
          (Option.some_get hs1).symm, ?_, by decide,
          (Option.some_get hs2).symm, ?_,
          (Option.some_get hs3).symm, ?_, ?_, ?_, ?_⟩
  · exact monotone_color.1 gChain 7 [1] allWhite _ (Option.some_get hs1).symm 2
  · exact monotone_color.2.1 gChain 1 7 allWhite _ (by decide) (Option.some_get hs2).symm 3
  · exact monotone_color.2.2.1 gCycle 3 1 allWhite _ (Option.some_get hs3).symm 2
  · exact (monotone_color.2.2.2 hBW 1 2 2).1
  · exact (monotone_color.2.2.2 hGW 1 2 2).2.1
  · exact (monotone_color.2.2.2 hGW 1 2 2).2.2

end GoGC
